import Mathlib

/-!
Verification of the ParamEditor core (salesup-test-task, src/App.tsx).

The component keeps an ordered sequence of parameter value records in its
state, seeded from the caller's model.  Edits go through handleParamChange
(find the entry with the edited paramId, replace it in place, otherwise
append), reads go through getParamValue (first match or empty string) and
snapshots go through getModel (spread of the props model with the live
state sequence installed as paramValues).

Two layers are developed below.  The first is a pure value-level embedding
of the store operations.  The second adds an explicit heap of array cells
so that the reference behaviour of the constructor's defensive copy and of
the snapshot returned by getModel can be stated and checked.
-/

/-- Parameter definition as in the source interface Param: identifier,
display name and kind tag (only the string kind is exercised). -/
structure Param where
  id : Int
  name : String
  type : String
deriving DecidableEq

/-- Parameter value record as in the source interface ParamValue. -/
structure ParamValue where
  paramId : Int
  value : String
deriving DecidableEq

/-- Color record as in the source interface Color: opaque to the core. -/
structure Color where
  id : Int
  name : String
deriving DecidableEq

/-- Model as in the source interface Model: the ordered parameter values
plus the untouched color list. -/
structure Model where
  paramValues : List ParamValue
  colors : List Color
deriving DecidableEq

/-- Contents of the editor state: the ordered sequence of ParamValue
records held in this.state.paramValues. -/
abbrev Store := List ParamValue

/-- Embedding of handleParamChange: findIndex on paramId; on a hit the
entry at that index is replaced by a fresh record, otherwise a fresh
record is pushed at the end. -/
def handleParamChange (l : Store) (paramId : Int) (value : String) : Store :=
  match l.findIdx? (fun parameterValue => parameterValue.paramId == paramId) with
  | some i => l.set i ⟨paramId, value⟩
  | none => l ++ [⟨paramId, value⟩]

/-- Embedding of getParamValue: the first entry with the given paramId, or
the empty string when none is found. -/
def getParamValue (l : Store) (paramId : Int) : String :=
  match l.find? (fun v => v.paramId == paramId) with
  | some parameterValue => parameterValue.value
  | none => ""

/-- Embedding of getModel: spread of the props model with paramValues
replaced by the current state sequence. -/
def getModel (model : Model) (statePV : Store) : Model :=
  { model with paramValues := statePV }

/-- Sequence of edit events applied in order through handleParamChange. -/
def applyUpdates (l : Store) (us : List (Int × String)) : Store :=
  us.foldl (fun acc u => handleParamChange acc u.1 u.2) l

theorem applyUpdates_nil (l : Store) : applyUpdates l [] = l := rfl

theorem applyUpdates_cons (l : Store) (u : Int × String) (us : List (Int × String)) :
    applyUpdates l (u :: us) = applyUpdates (handleParamChange l u.1 u.2) us := rfl

/-- Unfolding of handleParamChange on a cons cell. -/
theorem handleParamChange_cons (pv : ParamValue) (l : Store) (id : Int) (v : String) :
    handleParamChange (pv :: l) id v =
      if pv.paramId = id then (⟨id, v⟩ : ParamValue) :: l
      else pv :: handleParamChange l id v := by
  unfold handleParamChange
  rw [List.findIdx?_cons, List.findIdx?_succ]
  by_cases h : pv.paramId = id
  · simp [h]
  · have hb : (pv.paramId == id) = false := by simpa using h
    rw [hb]
    cases hfi : l.findIdx? (fun parameterValue => parameterValue.paramId == id) with
    | none => simp [hfi, h]
    | some j => simp [hfi, h]

/-- Unfolding of getParamValue on a cons cell. -/
theorem getParamValue_cons (pv : ParamValue) (l : Store) (id : Int) :
    getParamValue (pv :: l) id =
      if pv.paramId = id then pv.value else getParamValue l id := by
  unfold getParamValue
  by_cases h : pv.paramId = id
  · rw [List.find?_cons_of_pos _ (by simpa using h), if_pos h]
  · rw [List.find?_cons_of_neg _ (by simpa using h), if_neg h]

/-- Pointwise effect of one update on reads. -/
theorem getParamValue_handleParamChange (l : Store) (id idq : Int) (v : String) :
    getParamValue (handleParamChange l id v) idq =
      if idq = id then v else getParamValue l idq := by
  induction l with
  | nil =>
    by_cases h : idq = id
    · simp [handleParamChange, getParamValue, h]
    · have hq : ¬ id = idq := fun he => h he.symm
      simp [handleParamChange, getParamValue, h, hq]
  | cons pv l ih =>
    rw [handleParamChange_cons]
    by_cases h : pv.paramId = id
    · rw [if_pos h, getParamValue_cons, getParamValue_cons]
      by_cases h2 : idq = id
      · simp [h2]
      · have hne : pv.paramId ≠ idq := fun he => h2 (h ▸ he).symm
        have hq : ¬ id = idq := fun he => h2 he.symm
        simp [h2, hne, hq]
    · rw [if_neg h, getParamValue_cons, ih]
      by_cases h2 : idq = id
      · have hne : pv.paramId ≠ idq := fun he => h (h2 ▸ he)
        simp [h2, hne, h]
      · rw [getParamValue_cons]
        by_cases h3 : pv.paramId = idq <;> simp [h2, h3]

/-- The value of a read is empty when no entry carries the id. -/
theorem getParamValue_eq_empty_of_absent (l : Store) (id : Int)
    (h : ∀ pv ∈ l, pv.paramId ≠ id) : getParamValue l id = "" := by
  unfold getParamValue
  have : l.find? (fun v => v.paramId == id) = none := by
    rw [List.find?_eq_none]
    intro pv hpv
    simpa using h pv hpv
  rw [this]

/-- Effect of one update on the sequence of stored ids: a hit keeps the id
sequence, a miss appends the new id. -/
theorem map_paramId_handleParamChange (l : Store) (id : Int) (v : String) :
    (handleParamChange l id v).map ParamValue.paramId =
      if id ∈ l.map ParamValue.paramId then l.map ParamValue.paramId
      else l.map ParamValue.paramId ++ [id] := by
  induction l with
  | nil => simp [handleParamChange]
  | cons pv l ih =>
    rw [handleParamChange_cons]
    by_cases h : pv.paramId = id
    · simp [h]
    · have hq : ¬ id = pv.paramId := fun he => h he.symm
      by_cases h2 : id ∈ l.map ParamValue.paramId
      · simp [h, hq, h2, ih]
      · simp [h, hq, h2, ih]

/-- Distinctness of stored ids survives one update. -/
theorem nodup_paramId_handleParamChange (l : Store) (id : Int) (v : String)
    (h : (l.map ParamValue.paramId).Nodup) :
    ((handleParamChange l id v).map ParamValue.paramId).Nodup := by
  rw [map_paramId_handleParamChange]
  by_cases hm : id ∈ l.map ParamValue.paramId
  · simpa [hm] using h
  · rw [if_neg hm]
    refine List.Nodup.append h (List.nodup_singleton id) ?_
    intro a ha hb
    rw [List.mem_singleton] at hb
    exact hm (hb ▸ ha)

/-- Order of first occurrence of the ids of a sequence, continuing a list
of already-seen ids. -/
def firstOccurAux (acc : List Int) : List Int → List Int
  | [] => acc
  | x :: xs => firstOccurAux (if x ∈ acc then acc else acc ++ [x]) xs

/-- Order of first occurrence of the ids of a sequence. -/
def firstOccur (l : List Int) : List Int := firstOccurAux [] l

theorem firstOccurAux_append (acc xs ys : List Int) :
    firstOccurAux acc (xs ++ ys) = firstOccurAux (firstOccurAux acc xs) ys := by
  induction xs generalizing acc with
  | nil => rfl
  | cons x xs ih =>
    have hc : (x :: xs) ++ ys = x :: (xs ++ ys) := rfl
    rw [hc, firstOccurAux, firstOccurAux, ih]

theorem firstOccurAux_nodup (acc xs : List Int) (h : acc.Nodup) :
    (firstOccurAux acc xs).Nodup := by
  induction xs generalizing acc with
  | nil => exact h
  | cons x xs ih =>
    rw [firstOccurAux]
    by_cases hx : x ∈ acc
    · rw [if_pos hx]
      exact ih acc h
    · rw [if_neg hx]
      refine ih _ ?_
      simpa [List.nodup_append] using ⟨h, hx⟩

theorem mem_firstOccurAux (acc xs : List Int) (a : Int) :
    a ∈ firstOccurAux acc xs ↔ a ∈ acc ∨ a ∈ xs := by
  induction xs generalizing acc with
  | nil => simp [firstOccurAux]
  | cons x xs ih =>
    rw [firstOccurAux]
    by_cases hx : x ∈ acc
    · rw [if_pos hx, ih]
      constructor
      · rintro (ha | ha)
        · exact Or.inl ha
        · exact Or.inr (List.mem_cons_of_mem _ ha)
      · rintro (ha | ha)
        · exact Or.inl ha
        · rcases List.mem_cons.mp ha with he | ha
          · exact Or.inl (he ▸ hx)
          · exact Or.inr ha
    · rw [if_neg hx, ih]
      simp only [List.mem_append, List.mem_singleton, List.mem_cons]
      tauto

theorem firstOccurAux_of_fresh (xs : List Int) : ∀ acc : List Int, xs.Nodup →
    (∀ x ∈ xs, x ∉ acc) → firstOccurAux acc xs = acc ++ xs := by
  induction xs with
  | nil => intro acc _ _; simp [firstOccurAux]
  | cons x xs ih =>
    intro acc hnd hfresh
    have hx : x ∉ acc := hfresh x (List.mem_cons_self x xs)
    rw [firstOccurAux, if_neg hx]
    rw [ih (acc ++ [x]) (List.nodup_cons.mp hnd).2 ?_]
    · simp
    · intro y hy
      simp only [List.mem_append, List.mem_singleton]
      rintro (hya | hyx)
      · exact hfresh y (List.mem_cons_of_mem _ hy) hya
      · exact (List.nodup_cons.mp hnd).1 (hyx ▸ hy)

/-- Value of the last write to an id in a sequence of updates, if any. -/
def lastValue : List (Int × String) → Int → Option String
  | [], _ => none
  | u :: us, id =>
    match lastValue us id with
    | some v => some v
    | none => if u.1 = id then some u.2 else none

theorem lastValue_cons (u : Int × String) (us : List (Int × String)) (id : Int) :
    lastValue (u :: us) id =
      match lastValue us id with
      | some v => some v
      | none => if u.1 = id then some u.2 else none := rfl

/-- Core invariant of a run of updates from a store with distinct ids: the
id sequence follows first occurrence and each read is the last write (or
the seeded value). -/
theorem applyUpdates_core (us : List (Int × String)) : ∀ init : Store,
    (init.map ParamValue.paramId).Nodup →
    (applyUpdates init us).map ParamValue.paramId =
        firstOccurAux (init.map ParamValue.paramId) (us.map Prod.fst) ∧
    ∀ id : Int, getParamValue (applyUpdates init us) id =
        (lastValue us id).getD (getParamValue init id) := by
  induction us with
  | nil =>
    intro init _
    exact ⟨rfl, fun id => rfl⟩
  | cons u us ih =>
    intro init h
    rw [applyUpdates_cons]
    have hn := nodup_paramId_handleParamChange init u.1 u.2 h
    obtain ⟨ih1, ih2⟩ := ih (handleParamChange init u.1 u.2) hn
    constructor
    · rw [ih1, map_paramId_handleParamChange]
      rfl
    · intro id
      rw [ih2 id, getParamValue_handleParamChange]
      cases hlv : lastValue us id with
      | some v =>
        rw [lastValue_cons, hlv]
        simp
      | none =>
        rw [lastValue_cons, hlv]
        by_cases hid : id = u.1
        · rw [if_pos hid, if_pos hid.symm]
          simp
        · rw [if_neg hid, if_neg (fun he => hid he.symm)]

/-- Address of a JS array in the heap model. -/
abbrev Addr := Nat

/-- Heap of ParamValue arrays: models JS reference semantics for the
sequences the editor touches (the model's paramValues and the state's). -/
structure JSHeap where
  cells : List Store
deriving DecidableEq

/-- Dereference of an array address (empty sequence for a dangling one). -/
def JSHeap.read (h : JSHeap) (a : Addr) : Store := h.cells.getD a []

/-- Allocation of a fresh array with the given contents. -/
def JSHeap.alloc (h : JSHeap) (l : Store) : JSHeap × Addr :=
  (⟨h.cells ++ [l]⟩, h.cells.length)

/-- Overwrite of the array at an address (a caller-side mutation). -/
def JSHeap.write (h : JSHeap) (a : Addr) (l : Store) : JSHeap := ⟨h.cells.set a l⟩

/-- Model value whose paramValues field is a JS array reference; colors is
carried as a value since nothing in the core touches it. -/
structure ModelRef where
  paramValues : Addr
  colors : List Color
deriving DecidableEq

/-- Editor component state: the array reference held in
this.state.paramValues. -/
structure EditorState where
  stateArr : Addr
deriving DecidableEq

/-- Constructor of ParamEditor: the spread of props.model.paramValues
allocates a fresh array with the same contents and the state points at it. -/
def mkParamEditor (h : JSHeap) (model : ModelRef) : JSHeap × EditorState :=
  let p := h.alloc (h.read model.paramValues)
  (p.1, ⟨p.2⟩)

/-- handleParamChange at the reference level: the spread of the previous
state allocates a fresh array, the hit entry is replaced in it (or a fresh
record is pushed), and setState repoints the state at the new array. -/
def handleParamChangeRef (h : JSHeap) (st : EditorState) (paramId : Int)
    (value : String) : JSHeap × EditorState :=
  let p := h.alloc (handleParamChange (h.read st.stateArr) paramId value)
  (p.1, ⟨p.2⟩)

/-- getModel at the reference level: spread of the props model with the
live state array reference installed as paramValues, without copying. -/
def getModelRef (model : ModelRef) (st : EditorState) : ModelRef :=
  { model with paramValues := st.stateArr }

/-- getParamValue at the reference level. -/
def getParamValueRef (h : JSHeap) (st : EditorState) (paramId : Int) : String :=
  getParamValue (h.read st.stateArr) paramId

/-- Sequence of edit events applied at the reference level. -/
def applyUpdatesRef (h : JSHeap) (st : EditorState) :
    List (Int × String) → JSHeap × EditorState
  | [] => (h, st)
  | u :: us =>
    applyUpdatesRef (handleParamChangeRef h st u.1 u.2).1
      (handleParamChangeRef h st u.1 u.2).2 us

/-- getModel allocating a fresh result object: the object literal returns
a new object on every call, tagged here with a fresh identity drawn from a
counter. -/
def getModelObj (ctr : Nat) (model : ModelRef) (st : EditorState) :
    (Nat × ModelRef) × Nat :=
  ((ctr, getModelRef model st), ctr + 1)

/-- Reads through a live address survive an allocation. -/
theorem read_alloc_of_lt (h : JSHeap) (l : Store) (a : Addr)
    (ha : a < h.cells.length) : (h.alloc l).1.read a = h.read a := by
  unfold JSHeap.alloc JSHeap.read
  simp only
  rw [List.getD_eq_getElem?_getD, List.getD_eq_getElem?_getD,
    List.getElem?_append_left ha]

/-- The freshly allocated cell holds the requested contents. -/
theorem read_alloc_new (h : JSHeap) (l : Store) :
    (h.alloc l).1.read (h.alloc l).2 = l := by
  unfold JSHeap.alloc JSHeap.read
  simp only
  rw [List.getD_eq_getElem?_getD, List.getElem?_concat_length]
  rfl

/-- Reads through a live address see a write to that address. -/
theorem read_write_self (h : JSHeap) (a : Addr) (l : Store)
    (ha : a < h.cells.length) : (h.write a l).read a = l := by
  unfold JSHeap.write JSHeap.read
  simp only
  rw [List.getD_eq_getElem?_getD, List.getElem?_set_self (by simpa using ha)]
  rfl

/-- Edit events only allocate: every live cell keeps its contents and the
heap only grows. -/
theorem applyUpdatesRef_preserves (us : List (Int × String)) :
    ∀ (h : JSHeap) (st : EditorState) (a : Addr), a < h.cells.length →
    (applyUpdatesRef h st us).1.read a = h.read a ∧
    h.cells.length ≤ (applyUpdatesRef h st us).1.cells.length := by
  induction us with
  | nil => intro h st a ha; exact ⟨rfl, Nat.le_refl _⟩
  | cons u us ih =>
    intro h st a ha
    have hlen : (handleParamChangeRef h st u.1 u.2).1.cells.length =
        h.cells.length + 1 := by
      unfold handleParamChangeRef JSHeap.alloc
      simp
    have ha2 : a < (handleParamChangeRef h st u.1 u.2).1.cells.length := by
      rw [hlen]
      exact Nat.lt_succ_of_lt ha
    obtain ⟨h1, h2⟩ := ih (handleParamChangeRef h st u.1 u.2).1
      (handleParamChangeRef h st u.1 u.2).2 a ha2
    rw [applyUpdatesRef]
    refine ⟨?_, by omega⟩
    rw [h1]
    unfold handleParamChangeRef
    exact read_alloc_of_lt h _ a ha

/-- Updates to other ids leave a read unchanged across a whole run. -/
theorem getParamValue_applyUpdates_untouched (init : Store)
    (us : List (Int × String)) (id : Int) (hus : ∀ u ∈ us, u.1 ≠ id) :
    getParamValue (applyUpdates init us) id = getParamValue init id := by
  induction us generalizing init with
  | nil => rfl
  | cons u us ih =>
    rw [applyUpdates_cons, ih _ (fun x hx => hus x (List.mem_cons_of_mem u hx)),
      getParamValue_handleParamChange,
      if_neg (fun he => hus u (List.mem_cons_self u us) he.symm)]

/-- With pairwise distinct stored ids a read returns the value of the
member entry carrying that id. -/
theorem getParamValue_of_mem_nodup (s : Store) (pv : ParamValue)
    (hmem : pv ∈ s) (hnd : (s.map ParamValue.paramId).Nodup) :
    getParamValue s pv.paramId = pv.value := by
  induction s with
  | nil => cases hmem
  | cons q s ih =>
    rw [List.map_cons] at hnd
    rw [getParamValue_cons]
    rcases List.mem_cons.mp hmem with he | hmem2
    · rw [if_pos (by rw [he]), he]
    · have hq : q.paramId ≠ pv.paramId := by
        intro heq
        have h1 : pv.paramId ∈ s.map ParamValue.paramId :=
          List.mem_map_of_mem ParamValue.paramId hmem2
        exact (List.nodup_cons.mp hnd).1 (heq ▸ h1)
      rw [if_neg hq]
      exact ih hmem2 (List.nodup_cons.mp hnd).2

/-- Initial paramValues of the manual test scenario (the testModel of
App.tsx). -/
def testParamValues : Store := [⟨1, "повседневное"⟩, ⟨2, "макси"⟩]

/-- C1: update replaces in place on a hit (the first position holding the
edited paramId keeps its place and only its record changes) and appends a
fresh entry at the end on a miss; any integer paramId is accepted. -/
theorem update_replaces_or_appends (l : Store) (id : Int) (v : String) :
    (∃ i : Nat, ∃ hi : i < l.length, (l.get ⟨i, hi⟩).paramId = id ∧
        (∀ j : Nat, ∀ hj : j < l.length, j < i → (l.get ⟨j, hj⟩).paramId ≠ id) ∧
        handleParamChange l id v = l.set i ⟨id, v⟩) ∨
    ((∀ pv ∈ l, pv.paramId ≠ id) ∧
        handleParamChange l id v = l ++ [⟨id, v⟩]) := by
  induction l with
  | nil =>
    right
    exact ⟨fun pv hpv => absurd hpv (List.not_mem_nil pv), rfl⟩
  | cons pv l ih =>
    by_cases h : pv.paramId = id
    · left
      refine ⟨0, Nat.succ_pos _, h, ?_, ?_⟩
      · intro j hj hj0
        exact absurd hj0 (Nat.not_lt_zero j)
      · rw [handleParamChange_cons, if_pos h]
        rfl
    · rcases ih with ⟨i, hi, hget, hmin, heq⟩ | ⟨hall, heq⟩
      · left
        refine ⟨i + 1, Nat.succ_lt_succ hi, ?_, ?_, ?_⟩
        · simpa using hget
        · intro j hj hji
          cases j with
          | zero => simpa using h
          | succ j2 =>
            have := hmin j2 (Nat.lt_of_succ_lt_succ hj) (Nat.lt_of_succ_lt_succ hji)
            simpa using this
        · rw [handleParamChange_cons, if_neg h, heq]
          rfl
      · right
        refine ⟨?_, ?_⟩
        · intro q hq
          rcases List.mem_cons.mp hq with he | hq2
          · exact he ▸ h
          · exact hall q hq2
        · rw [handleParamChange_cons, if_neg h, heq]
          rfl

/-- C2: after any sequence of updates on a store seeded with pairwise
distinct paramIds there is exactly one entry per id seen, the ids stand in
first-seen order, and each read returns the last written value (or the
seeded one when the id was never written). -/
theorem updates_last_write_wins (init : Store) (us : List (Int × String))
    (h : (init.map ParamValue.paramId).Nodup) :
    ((applyUpdates init us).map ParamValue.paramId).Nodup ∧
    (∀ id : Int, id ∈ (applyUpdates init us).map ParamValue.paramId ↔
      (id ∈ init.map ParamValue.paramId ∨ id ∈ us.map Prod.fst)) ∧
    (applyUpdates init us).map ParamValue.paramId =
      firstOccur (init.map ParamValue.paramId ++ us.map Prod.fst) ∧
    ∀ id : Int, getParamValue (applyUpdates init us) id =
      (lastValue us id).getD (getParamValue init id) := by
  obtain ⟨h1, h2⟩ := applyUpdates_core us init h
  have hfo : firstOccur (init.map ParamValue.paramId ++ us.map Prod.fst) =
      firstOccurAux (init.map ParamValue.paramId) (us.map Prod.fst) := by
    rw [firstOccur, firstOccurAux_append]
    have hbase : firstOccurAux [] (init.map ParamValue.paramId) =
        init.map ParamValue.paramId := by
      have := firstOccurAux_of_fresh (init.map ParamValue.paramId) [] h
        (fun x _ => List.not_mem_nil x)
      simpa using this
    rw [hbase]
  refine ⟨?_, ?_, ?_, h2⟩
  · rw [h1]
    exact firstOccurAux_nodup _ _ h
  · intro id
    rw [h1, mem_firstOccurAux]
  · rw [h1, hfo]

theorem updates_last_write_wins_witness :
    ((applyUpdates testParamValues [(1, "вечернее")]).map ParamValue.paramId).Nodup ∧
    (∀ id : Int, id ∈ (applyUpdates testParamValues [(1, "вечернее")]).map ParamValue.paramId ↔
      (id ∈ testParamValues.map ParamValue.paramId ∨
        id ∈ ([(1, "вечернее")] : List (Int × String)).map Prod.fst)) ∧
    (applyUpdates testParamValues [(1, "вечернее")]).map ParamValue.paramId =
      firstOccur (testParamValues.map ParamValue.paramId ++
        ([(1, "вечернее")] : List (Int × String)).map Prod.fst) ∧
    ∀ id : Int, getParamValue (applyUpdates testParamValues [(1, "вечернее")]) id =
      (lastValue [(1, "вечернее")] id).getD (getParamValue testParamValues id) :=
  updates_last_write_wins testParamValues [(1, "вечернее")] (by decide)

/-- C3: a read immediately after an update of the same id returns the
written value, and a read of an id never written and absent from the
seeded model returns the empty string rather than failing. -/
theorem read_after_update (l : Store) (id : Int) (v : String) :
    getParamValue (handleParamChange l id v) id = v ∧
    ∀ init : Store, ∀ us : List (Int × String),
      (∀ pv ∈ init, pv.paramId ≠ id) → (∀ u ∈ us, u.1 ≠ id) →
      getParamValue (applyUpdates init us) id = "" := by
  constructor
  · rw [getParamValue_handleParamChange, if_pos rfl]
  · intro init us hinit hus
    rw [getParamValue_applyUpdates_untouched init us id hus]
    exact getParamValue_eq_empty_of_absent init id hinit

/-- C4: pairwise distinctness of the stored paramIds is preserved by every
sequence of updates: a repeated write overwrites and never duplicates. -/
theorem update_preserves_unique_paramIds (init : Store)
    (us : List (Int × String)) (h : (init.map ParamValue.paramId).Nodup) :
    ((applyUpdates init us).map ParamValue.paramId).Nodup := by
  obtain ⟨h1, _⟩ := applyUpdates_core us init h
  rw [h1]
  exact firstOccurAux_nodup _ _ h

theorem update_preserves_unique_paramIds_witness :
    ((applyUpdates testParamValues [(1, "вечернее"), (1, "ретро")]).map ParamValue.paramId).Nodup :=
  update_preserves_unique_paramIds testParamValues [(1, "вечернее"), (1, "ретро")] (by decide)

/-- C5: the colors of an exported model are exactly the colors of the
original model, for every store state and any run of updates. -/
theorem export_colors_passthrough (model : Model) (s : Store)
    (us : List (Int × String)) :
    (getModel model s).colors = model.colors ∧
    (getModel model (applyUpdates s us)).colors = model.colors :=
  ⟨rfl, rfl⟩

/-- C6: two consecutive exports with no update in between return distinct
fresh objects that are structurally equal: the same model contents, hence
the same dereferenced paramValues sequence and the same colors. -/
theorem export_idempotent_snapshots (h : JSHeap) (ctr : Nat)
    (model : ModelRef) (st : EditorState) :
    (getModelObj ctr model st).1.1 ≠
      (getModelObj (getModelObj ctr model st).2 model st).1.1 ∧
    (getModelObj ctr model st).1.2 =
      (getModelObj (getModelObj ctr model st).2 model st).1.2 ∧
    JSHeap.read h (getModelObj ctr model st).1.2.paramValues =
      JSHeap.read h (getModelObj (getModelObj ctr model st).2 model st).1.2.paramValues ∧
    (getModelObj ctr model st).1.2.colors =
      (getModelObj (getModelObj ctr model st).2 model st).1.2.colors :=
  ⟨Nat.ne_of_lt (Nat.lt_succ_self ctr), rfl, rfl, rfl⟩

/-- C7 as stated is false: after constructing the editor and exporting,
one write through the exported paramValues reference changes what the
live store reads, with no intervening update. -/
theorem export_not_isolated :
    (let h0 : JSHeap := ⟨[[⟨1, "а"⟩]]⟩
     let model : ModelRef := ⟨0, []⟩
     let p := mkParamEditor h0 model
     let m := getModelRef model p.2
     let h2 := JSHeap.write p.1 m.paramValues [⟨1, "б"⟩]
     getParamValueRef p.1 p.2 1 = "а" ∧ getParamValueRef h2 p.2 1 = "б") := by
  decide

/-- C7 amended: the exported model's paramValues is the live state array
reference itself, so a caller writing through the snapshot changes what
the live store subsequently reads (until an update repoints the state at
a freshly allocated array). -/
theorem export_shares_state_array (h : JSHeap) (model : ModelRef)
    (st : EditorState) (l : Store) (hv : st.stateArr < h.cells.length) :
    (getModelRef model st).paramValues = st.stateArr ∧
    ∀ id : Int,
      getParamValueRef (JSHeap.write h (getModelRef model st).paramValues l) st id =
        getParamValue l id := by
  refine ⟨rfl, fun id => ?_⟩
  unfold getParamValueRef
  rw [show (getModelRef model st).paramValues = st.stateArr from rfl,
    read_write_self h st.stateArr l hv]

theorem export_shares_state_array_witness :
    (getModelRef ⟨0, []⟩ ⟨0⟩).paramValues = (⟨0⟩ : EditorState).stateArr ∧
    ∀ id : Int,
      getParamValueRef (JSHeap.write ⟨[[⟨1, "а"⟩]]⟩ (getModelRef ⟨0, []⟩ ⟨0⟩).paramValues [⟨2, "б"⟩]) ⟨0⟩ id =
        getParamValue [⟨2, "б"⟩] id :=
  export_shares_state_array ⟨[[⟨1, "а"⟩]]⟩ ⟨0, []⟩ ⟨0⟩ [⟨2, "б"⟩] (by decide)

/-- C8: the constructor seeds the state with a fresh array holding a copy
of the model's paramValues, and no sequence of updates ever changes the
caller's original sequence. -/
theorem init_defensive_copy (h : JSHeap) (model : ModelRef)
    (us : List (Int × String)) (hv : model.paramValues < h.cells.length) :
    (mkParamEditor h model).2.stateArr ≠ model.paramValues ∧
    (mkParamEditor h model).1.read (mkParamEditor h model).2.stateArr =
      h.read model.paramValues ∧
    (applyUpdatesRef (mkParamEditor h model).1 (mkParamEditor h model).2 us).1.read
        model.paramValues = h.read model.paramValues := by
  refine ⟨?_, ?_, ?_⟩
  · show h.cells.length ≠ model.paramValues
    exact Nat.ne_of_gt hv
  · exact read_alloc_new h _
  · have hlen : model.paramValues < (mkParamEditor h model).1.cells.length := by
      show model.paramValues < (h.cells ++ [h.read model.paramValues]).length
      rw [List.length_append, List.length_singleton]
      exact Nat.lt_succ_of_lt hv
    obtain ⟨h1, _⟩ := applyUpdatesRef_preserves us (mkParamEditor h model).1
      (mkParamEditor h model).2 model.paramValues hlen
    rw [h1]
    exact read_alloc_of_lt h _ _ hv

theorem init_defensive_copy_witness :
    (mkParamEditor ⟨[testParamValues]⟩ ⟨0, []⟩).2.stateArr ≠ (⟨0, []⟩ : ModelRef).paramValues ∧
    (mkParamEditor ⟨[testParamValues]⟩ ⟨0, []⟩).1.read (mkParamEditor ⟨[testParamValues]⟩ ⟨0, []⟩).2.stateArr =
      JSHeap.read ⟨[testParamValues]⟩ (⟨0, []⟩ : ModelRef).paramValues ∧
    (applyUpdatesRef (mkParamEditor ⟨[testParamValues]⟩ ⟨0, []⟩).1
        (mkParamEditor ⟨[testParamValues]⟩ ⟨0, []⟩).2 [(3, "хлопок")]).1.read
        (⟨0, []⟩ : ModelRef).paramValues =
      JSHeap.read ⟨[testParamValues]⟩ (⟨0, []⟩ : ModelRef).paramValues :=
  init_defensive_copy ⟨[testParamValues]⟩ ⟨0, []⟩ [(3, "хлопок")] (by decide)

/-- C9: an update leaves the read of every other id unchanged. -/
theorem update_frame (l : Store) (id idq : Int) (v : String) (hne : idq ≠ id) :
    getParamValue (handleParamChange l id v) idq = getParamValue l idq := by
  rw [getParamValue_handleParamChange, if_neg hne]

theorem update_frame_witness :
    getParamValue (handleParamChange testParamValues 1 "вечернее") 2 =
      getParamValue testParamValues 2 :=
  update_frame testParamValues 1 2 "вечернее" (by decide)

/-- C10: a read returns the empty string both when the id is absent and
when the stored value is the empty string (for instance right after an
update with the empty string), so a reader cannot tell the two apart. -/
theorem read_empty_ambiguity (s : Store) (id : Int) :
    ((∀ pv ∈ s, pv.paramId ≠ id) → getParamValue s id = "") ∧
    getParamValue (handleParamChange s id "") id = "" ∧
    (∀ pv ∈ s, pv.paramId = id → pv.value = "" →
      (s.map ParamValue.paramId).Nodup → getParamValue s id = "") := by
  refine ⟨getParamValue_eq_empty_of_absent s id, ?_, ?_⟩
  · rw [getParamValue_handleParamChange, if_pos rfl]
  · intro pv hpv hid hval hnd
    have hv := getParamValue_of_mem_nodup s pv hpv hnd
    rw [hid] at hv
    rw [hv, hval]
